import Mathlib

/-!
Verification of the IEEE 802.11a/g OFDM transceiver specification against the
Python sources (`ieee80211ag/common.py`, `tx.py`, `rx.py`).

Pure bit-level functions are embedded as computable Lean functions on
`List Nat` / `List Bool` / `ℚ`; the few genuinely real-valued quantities
(channel magnitudes) are embedded over `ℝ`/`ℂ`.  Several receiver functions
are left as student-task stubs in `rx.py` (`packet_detector`, `descramble`,
`convolutional_decoder`, `create_deinterleaving_pattern`, `demapper_ofdm`)
and the convolutional encoder delegates to an external `viterbi` package;
those are modelled from the specification, as indicated in the individual
doc comments.
-/

namespace Ofdm

/-! ## Generic list helpers -/

/-- Chunks of size `n`, driven by an explicit fuel so the recursion is
structural (`fuel` is instantiated with the list length). -/
def chunksOfAux (n : Nat) : Nat → List ℚ → List (List ℚ)
  | 0, _ => []
  | _, [] => []
  | fuel + 1, l => l.take n :: chunksOfAux n fuel (l.drop n)

/-- Split a list into consecutive chunks of `n` elements (last chunk may be
shorter); models a row-major `reshape` of a flat numpy array. -/
def chunksOf (n : Nat) (l : List ℚ) : List (List ℚ) :=
  chunksOfAux n l.length l

/-! ## Bit/byte conversions -/

/-- Little-endian bit list (LSB first) of `x`, `k` bits; models
`format(x, '0kb')[::-1]` for `x < 2^k`. -/
def toBitsLE : Nat → Nat → List Nat
  | 0, _ => []
  | k + 1, x => (x % 2) :: toBitsLE k (x / 2)

/-- MSB-first bit list of `x`, `k` bits; models `format(x, '0kb')` for
`x < 2^k`. -/
def toBitsMSB (k x : Nat) : List Nat :=
  (toBitsLE k x).reverse

/-- Integer from a little-endian bit list. -/
def fromBitsLE : List Nat → Nat
  | [] => 0
  | b :: bs => b + 2 * fromBitsLE bs

/-- Integer from an MSB-first bit list; models `int("".join(bits), 2)`. -/
def fromBitsMSB (bits : List Nat) : Nat :=
  bits.foldl (fun acc b => 2 * acc + b) 0

/-- Value of one byte from up to 8 little-endian bits (non-zero entries are
binarized to 1, as `np.packbits` does). -/
def byteOfBits (bits : List Nat) : Nat :=
  (bits.take 8).foldr (fun b acc => min b 1 + 2 * acc) 0

/-- `np.packbits(bits, bitorder='little')`: 8 bits per byte, LSB first, the
final partial byte zero-padded. -/
def packbitsLE : List Nat → List Nat
  | [] => []
  | b0 :: b1 :: b2 :: b3 :: b4 :: b5 :: b6 :: b7 :: rest =>
      byteOfBits [b0, b1, b2, b3, b4, b5, b6, b7] :: packbitsLE rest
  | l => [byteOfBits l]

/-- `int.from_bytes(bytes, 'little')`. -/
def fromLEbytes : List Nat → Nat
  | [] => 0
  | b :: bs => b + 256 * fromLEbytes bs

/-! ## Rate table (`common.py`, `RATE_MAP`) -/

/-- One entry of `RATE_MAP` (`common.py` lines 127-136). -/
structure RateParams where
  name : String
  mbps : Nat
  n_bpsc : Nat
  n_dbps : Nat
  n_cbps : Nat
deriving DecidableEq

/-- Result of the `RATE_MAP.get(rate_val, ...)` lookup in
`decode_signal_field` (`rx.py` line 922): either a full rate entry or the
fallback dictionary `{'name': 'Invalid Rate', 'Mbps': 0}`, which carries no
`n_bpsc`/`n_cbps`/`n_dbps` keys. -/
inductive RateInfo where
  | valid (p : RateParams)
  | invalid
deriving DecidableEq

/-- `RATE_MAP` from `common.py`: 4-bit rate key to rate parameters. -/
def RATE_MAP : List (Nat × RateParams) :=
  [ (0b1101, ⟨"BPSK 1/2", 6, 1, 24, 48⟩),
    (0b1111, ⟨"BPSK 3/4", 9, 1, 36, 48⟩),
    (0b0101, ⟨"QPSK 1/2", 12, 2, 48, 96⟩),
    (0b0111, ⟨"QPSK 3/4", 18, 2, 72, 96⟩),
    (0b1001, ⟨"16-QAM 1/2", 24, 4, 96, 192⟩),
    (0b1011, ⟨"16-QAM 3/4", 36, 4, 144, 192⟩),
    (0b0001, ⟨"64-QAM 2/3", 48, 6, 192, 288⟩),
    (0b0011, ⟨"64-QAM 3/4", 54, 6, 216, 288⟩) ]

/-- `RATE_MAP.get(k, {'name': 'Invalid Rate', 'Mbps': 0})`. -/
def rateInfoLookup (k : Nat) : RateInfo :=
  match RATE_MAP.find? (fun e => e.1 == k) with
  | some e => RateInfo.valid e.2
  | none => RateInfo.invalid

/-! ## Scrambler (`common.py`, `scramble`) and descrambler -/

/-- One shift of the x⁷+x⁴+1 LFSR: feedback `state[6] XOR state[3]` enters
position 0, the rest shifts right (`common.py` lines 307-312).  The state
update does not depend on the data bits. -/
def lfsrNext (st : List Nat) : List Nat :=
  ((st.getD 6 0) ^^^ (st.getD 3 0)) :: st.take 6

/-- Scrambling loop of `common.py` lines 303-312: each output is the input
XOR the LFSR feedback. -/
def scrambleAux (st : List Nat) : List Nat → List Nat
  | [] => []
  | d :: ds => (d ^^^ ((st.getD 6 0) ^^^ (st.getD 3 0))) :: scrambleAux (lfsrNext st) ds

/-- `format(initial_state, '07b')` as an int list, MSB first (`common.py`
line 302); faithful for `initial_state < 128`. -/
def stateBits7 (s : Nat) : List Nat :=
  [s / 64 % 2, s / 32 % 2, s / 16 % 2, s / 8 % 2, s / 4 % 2, s / 2 % 2, s % 2]

/-- `scramble(data_bits, initial_state)` from `common.py`. -/
def scramble (data : List Nat) (initial_state : Nat) : List Nat :=
  scrambleAux (stateBits7 initial_state) data

/-- Modelled from the spec: `descramble` in `rx.py` is a student-task stub
returning an empty array.  Spec §4.10: the first 7 scrambled bits are the
LFSR output over known-zero service bits, so they equal the feedback
sequence; after 7 steps the register holds exactly those 7 bits
(most recent first), and the same XOR stream applied from there undoes the
scrambling of the remaining bits.  The first 7 outputs are the known zeros. -/
def descramble (y : List Nat) : List Nat :=
  let st := [y.getD 6 0, y.getD 5 0, y.getD 4 0, y.getD 3 0,
             y.getD 2 0, y.getD 1 0, y.getD 0 0]
  List.replicate (min 7 y.length) 0 ++ scrambleAux st (y.drop 7)

/-! ## Interleaver (`tx.py`, `create_interleaving_pattern` / `interleave`) -/

/-- First permutation of `create_interleaving_pattern` (`tx.py` line 169):
`i = (n_cbps // 16) * (k % 16) + k // 16`. -/
def perm1 (ncbps k : Nat) : Nat :=
  (ncbps / 16) * (k % 16) + k / 16

/-- Second permutation of `create_interleaving_pattern` (`tx.py` line 175):
`j = s*(i//s) + (i + n_cbps - (16*i // n_cbps)) % s` with
`s = max(n_bpsc // 2, 1)`. -/
def perm2 (ncbps nbpsc i : Nat) : Nat :=
  let s := max (nbpsc / 2) 1
  s * (i / s) + (i + ncbps - (16 * i / ncbps)) % s

/-- Stable insertion into an index list sorted by `key` (strictly-less test,
so equal keys keep order). -/
def insertIdx (key : Nat → Nat) (k : Nat) : List Nat → List Nat
  | [] => [k]
  | j :: rest => if key k < key j then k :: j :: rest else j :: insertIdx key k rest

/-- `np.argsort` over index lists by key value (insertion sort; the source
array `interleave_map[i]` is a permutation, all keys distinct, so any
correct sort produces the same index list as numpy's). -/
def argsortBy (key : Nat → Nat) : List Nat → List Nat
  | [] => []
  | k :: rest => insertIdx key k (argsortBy key rest)

/-- `create_interleaving_pattern(n_cbps, n_bpsc)` from `tx.py`:
`np.argsort(interleave_map[i])` where the composed value at `k` is
`perm2 (perm1 k)`. -/
def create_interleaving_pattern (ncbps nbpsc : Nat) : List Nat :=
  argsortBy (fun k => perm2 ncbps nbpsc (perm1 ncbps k)) (List.range ncbps)

/-- `interleave(bits, n_cbps, n_bpsc) = bits[pattern]` from `tx.py`. -/
def interleave (bits : List Nat) (ncbps nbpsc : Nat) : List Nat :=
  (create_interleaving_pattern ncbps nbpsc).map (fun j => bits.getD j 0)

/-- Modelled from the spec: `create_deinterleaving_pattern` in `rx.py` is a
student-task stub returning an empty array.  Spec §4.8: transmit applies
`input[k] → output[π₂(π₁(k))]` and the deinterleaver is the inverse
permutation; indexing the interleaved vector by `k ↦ π₂(π₁(k))` recovers the
original order. -/
def create_deinterleaving_pattern (ncbps nbpsc : Nat) : List Nat :=
  (List.range ncbps).map (fun k => perm2 ncbps nbpsc (perm1 ncbps k))

/-- Boolean check, evaluated by the kernel per rate: the interleaving
pattern has length `n_cbps`, the composed permutation stays in range, and
`pattern[perm2 (perm1 k)] = k` for every `k`. -/
def invCheckAux (pat : List Nat) (f : Nat → Nat) : Nat → Bool
  | 0 => true
  | k + 1 => (decide (f k < pat.length) && pat.getD (f k) pat.length == k)
      && invCheckAux pat f k

/-- Full interleaver-inversion check for one `(n_cbps, n_bpsc)` pair. -/
def interleaveCheck (ncbps nbpsc : Nat) : Bool :=
  let pat := create_interleaving_pattern ncbps nbpsc
  (pat.length == ncbps) && invCheckAux pat (fun k => perm2 ncbps nbpsc (perm1 ncbps k)) ncbps

/-! ## Convolutional encoder (K = 7, rate 1/2, generators 133₈ / 171₈)

Modelled from the spec: `convolutional_encoder` in `tx.py` delegates to the
external `viterbi` pip package (`Viterbi(7, [0o133, 0o171]).encode`), whose
source is not part of this repository.  Spec §4.9: for each input bit, shift
into a 7-bit register (most recent first) starting from the all-zero state
and output the two XOR-reductions with the generator masks; generator
`g₀ = 133₈` taps delays {0,2,3,5,6}, `g₁ = 171₈` taps delays {0,1,2,3,6}.

The 6-bit encoder state is a `Nat < 64`; bit 5 is the input of one step
ago, …, bit 0 the input of six steps ago. -/

/-- Bit `j` of `s` as a Bool (`s / 2^j % 2 = 1`). -/
def bitOf (s j : Nat) : Bool :=
  decide (s / 2 ^ j % 2 = 1)

/-- Shift-register update: the new bit enters at position 5. -/
def nextState (s : Nat) (b : Bool) : Nat :=
  s / 2 + if b then 32 else 0

/-- First output bit (generator 133₈): current input XOR delays 2,3,5,6. -/
def outA (b : Bool) (s : Nat) : Bool :=
  b.xor ((bitOf s 4).xor ((bitOf s 3).xor ((bitOf s 1).xor (bitOf s 0))))

/-- Second output bit (generator 171₈): current input XOR delays 1,2,3,6. -/
def outB (b : Bool) (s : Nat) : Bool :=
  b.xor ((bitOf s 5).xor ((bitOf s 4).xor ((bitOf s 3).xor (bitOf s 0))))

/-- Encode from state `s`, producing one output pair per input bit. -/
def encodePairs (s : Nat) : List Bool → List (Bool × Bool)
  | [] => []
  | b :: bs => (outA b s, outB b s) :: encodePairs (nextState s b) bs

/-- Flatten output pairs into the transmitted bit order `A₀ B₀ A₁ B₁ …`. -/
def flat2 : List (Bool × Bool) → List Bool
  | [] => []
  | p :: ps => p.1 :: p.2 :: flat2 ps

/-- `convolutional_encoder(bits)`: zero initial state, two coded bits per
input bit. -/
def convolutional_encoder (u : List Bool) : List Bool :=
  flat2 (encodePairs 0 u)

/-- Bipolar soft value of a coded bit under the spec's convention
(positive ⇒ hard bit 1): `c ↦ 2c − 1`. -/
def bip (c : Bool) : ℚ :=
  if c then 1 else -1

/-- Soft bits `2c − 1` derived from hard coded bits. -/
def softOf (c : List Bool) : List ℚ :=
  c.map bip

/-! ## Viterbi decoder

Modelled from the spec: `convolutional_decoder` in `rx.py` is a student-task
stub returning an empty array.  Spec §4.9: 64 path metrics initialised to 0
for state 0 and +∞ elsewhere, per-step branch metrics against the expected
code bits of each of the two predecessor transitions, one traceback bit per
state per step, final selection of the state with the smallest metric and
traceback.  The branch metric is a parameter here because the claims compare
two readings of the spec's formula (see `bmSpec` / `bmCorr`). -/

/-- The spec's branch-metric formula, literally:
`bm = −((1−2c₀)·r₀ + (1−2c₁)·r₁)`. -/
def bmSpec (c : Bool × Bool) (r : ℚ × ℚ) : ℚ :=
  -((1 - 2 * (if c.1 then (1 : ℚ) else 0)) * r.1 + (1 - 2 * (if c.2 then (1 : ℚ) else 0)) * r.2)

/-- The branch metric with the sign matching the spec's stated soft-bit
convention (positive ⇒ bit 1) and "smaller is better":
`bm = (1−2c₀)·r₀ + (1−2c₁)·r₁`, i.e. minus the correlation of `r` with the
bipolar expected bits. -/
def bmCorr (c : Bool × Bool) (r : ℚ × ℚ) : ℚ :=
  (1 - 2 * (if c.1 then (1 : ℚ) else 0)) * r.1 + (1 - 2 * (if c.2 then (1 : ℚ) else 0)) * r.2

/-- Group a flat LLR stream into per-step pairs `(r₀, r₁)`. -/
def pairUp : List ℚ → List (ℚ × ℚ)
  | a :: b :: rest => (a, b) :: pairUp rest
  | _ => []

/-- The input bit that leads into state `s` (bit 5 of the register). -/
def inBit (s : Nat) : Bool :=
  decide (32 ≤ s)

/-- The predecessor of state `s` selected by traceback bit `j` (the two
predecessors are `2·(s mod 32)` and `2·(s mod 32) + 1`). -/
def predState (s : Nat) (j : Bool) : Nat :=
  2 * (s % 32) + if j then 1 else 0

/-- Candidate path metric for reaching state `s` through predecessor `j`. -/
def branchCand (bmf : (Bool × Bool) → (ℚ × ℚ) → ℚ) (pm : List (WithTop ℚ))
    (r : ℚ × ℚ) (s : Nat) (j : Bool) : WithTop ℚ :=
  pm.getD (predState s j) ⊤ +
    ((bmf (outA (inBit s) (predState s j), outB (inBit s) (predState s j)) r : ℚ) : WithTop ℚ)

/-- One add-compare-select step over all 64 states: new path metrics and the
traceback bits (`true` = the `+1` predecessor was strictly better). -/
def vitStep (bmf : (Bool × Bool) → (ℚ × ℚ) → ℚ) (pm : List (WithTop ℚ)) (r : ℚ × ℚ) :
    List (WithTop ℚ) × List Bool :=
  ((List.range 64).map (fun s => min (branchCand bmf pm r s false) (branchCand bmf pm r s true)),
   (List.range 64).map (fun s => decide (branchCand bmf pm r s true < branchCand bmf pm r s false)))

/-- Initial path metrics: state 0 = 0, all others +∞. -/
def vitInit : List (WithTop ℚ) :=
  (0 : WithTop ℚ) :: List.replicate 63 ⊤

/-- Run the trellis over all LLR pairs; the returned traceback lists are in
reverse-chronological order (most recent step first). -/
def vitRun (bmf : (Bool × Bool) → (ℚ × ℚ) → ℚ) (pm : List (WithTop ℚ)) :
    List (ℚ × ℚ) → List (WithTop ℚ) × List (List Bool)
  | [] => (pm, [])
  | r :: rs =>
      let st := vitStep bmf pm r
      let rest := vitRun bmf st.1 rs
      (rest.1, rest.2 ++ [st.2])

/-- Walk the traceback lists (most recent first) from state `s`, emitting the
decoded input bits latest-first. -/
def tbWalk : List (List Bool) → Nat → List Bool
  | [], _ => []
  | tb :: older, s => inBit s :: tbWalk older (predState s (tb.getD s false))

/-- Index of the (first) smallest entry of a path-metric list. -/
def argminIdx : List (WithTop ℚ) → Nat
  | [] => 0
  | a :: rest =>
      let j := argminIdx rest
      if rest.getD j ⊤ < a then j + 1 else 0

/-- Full Viterbi decode with branch metric `bmf`: run the trellis, select
the state with the smallest final metric, trace back. -/
def viterbiCore (bmf : (Bool × Bool) → (ℚ × ℚ) → ℚ) (soft : List ℚ) : List Bool :=
  let prs := pairUp soft
  let res := vitRun bmf vitInit prs
  (tbWalk res.2 (argminIdx res.1)).reverse

/-- `convolutional_decoder(soft_bits)` with the branch-metric sign that
fulfils the spec's stated soft-bit convention; returns the full decoded
sequence (tail bits included). -/
def convolutional_decoder (soft : List ℚ) : List Bool :=
  viterbiCore bmCorr soft

/-- The decoder with the spec's §4.9 text taken literally: branch metric
`−((1−2c₀)·r₀ + (1−2c₁)·r₁)` and the 6 tail bits stripped after traceback. -/
def convolutional_decoder_litSpec (soft : List ℚ) : List Bool :=
  let d := viterbiCore bmSpec soft
  d.take (d.length - 6)

/-- Cost of following input bits `xs` from state `s` against LLR pairs `rs`
(the sum of the branch metrics along the path). -/
def pathCost (bmf : (Bool × Bool) → (ℚ × ℚ) → ℚ) : Nat → List (ℚ × ℚ) → List Bool → ℚ
  | _, _, [] => 0
  | _, [], _ => 0
  | s, r :: rs, x :: xs => bmf (outA x s, outB x s) r + pathCost bmf (nextState s x) rs xs

/-- State reached from `s` after consuming input bits `xs`. -/
def runState (s : Nat) (xs : List Bool) : Nat :=
  xs.foldl nextState s

/-- Dynamic-programming invariant after processing the LLR-pair prefix `P`:
the metric list has 64 entries, one traceback list per processed pair,
every finite metric is witnessed by its traceback path (soundness), and no
path of the right length beats its end-state's metric (minimality). -/
def VitInv (bmf : (Bool × Bool) → (ℚ × ℚ) → ℚ) (P : List (ℚ × ℚ))
    (pm : List (WithTop ℚ)) (tbs : List (List Bool)) : Prop :=
  pm.length = 64 ∧ tbs.length = P.length ∧
  (∀ s, s < 64 → pm.getD s ⊤ ≠ ⊤ →
    runState 0 (tbWalk tbs s).reverse = s ∧
    ((pathCost bmf 0 P (tbWalk tbs s).reverse : ℚ) : WithTop ℚ) = pm.getD s ⊤) ∧
  (∀ xs : List Bool, xs.length = P.length →
    pm.getD (runState 0 xs) ⊤ ≤ ((pathCost bmf 0 P xs : ℚ) : WithTop ℚ))

/-! ## SIGNAL field (`tx.py` `create_signal_field`, `rx.py` `decode_signal_field`) -/

/-- The 24 SIGNAL bits assembled by `create_signal_field` (`tx.py` lines
67-85): 4 rate bits MSB first, reserved 0, 12 length bits LSB first, even
parity over the first 17 bits, 6 zero tail bits. -/
def signalField24 (rate_key psdu_len : Nat) : List Nat :=
  let info := toBitsMSB 4 rate_key ++ [0] ++ toBitsLE 12 psdu_len
  info ++ [info.sum % 2] ++ List.replicate 6 0

/-- Result record of `decode_signal_field` (`rx.py` lines 913-937); the
`raw_bits` entry is the input itself and is omitted. -/
structure SignalParams where
  rate_info : RateInfo
  length : Nat
  parity_ok : Bool
  tail_ok : Bool
deriving DecidableEq

/-- Parsing step of `decode_signal_field` (`rx.py` lines 919-936), as a
function of the 24 Viterbi-decoded bits: rate from bits 0-3 (MSB first),
length from bits 5-16 (LSB first), parity check of bit 17 against the sum of
bits 0-16 mod 2, tail check of bits 18-23. -/
def decodeSignalBits (bits : List Nat) : SignalParams :=
  { rate_info := rateInfoLookup (fromBitsMSB (bits.take 4)),
    length := fromBitsLE ((bits.drop 5).take 12),
    parity_ok := decide ((bits.take 17).sum % 2 = bits.getD 17 0),
    tail_ok := ((bits.drop 18).take 6).all (fun b => b == 0) }

/-! ## CRC-32

Modelled from the spec: the source calls the Python standard library's
`binascii.crc32` (external code).  Spec §6: standard IEEE 802 polynomial
`0xEDB88320` (reversed), initial value all-ones, final XOR all-ones. -/

/-- One bit step of the reflected CRC-32: shift right, conditionally XOR the
reversed polynomial. -/
def crcBitStep (c : Nat) : Nat :=
  if c % 2 = 1 then (c / 2) ^^^ 0xEDB88320 else c / 2

/-- One byte step: XOR the byte into the low bits, then 8 bit steps. -/
def crcByteStep (c b : Nat) : Nat :=
  crcBitStep (crcBitStep (crcBitStep (crcBitStep
    (crcBitStep (crcBitStep (crcBitStep (crcBitStep (c ^^^ (b % 256)))))))))

/-- `binascii.crc32(bytes) & 0xFFFFFFFF`. -/
def crc32 (bytes : List Nat) : Nat :=
  (bytes.foldl crcByteStep 0xFFFFFFFF) ^^^ 0xFFFFFFFF

/-! ## Soft demapper and DATA-field decoding -/

/-- Modelled from the spec: `demapper_ofdm` in `rx.py` is a student-task
stub returning an empty array.  Spec §4.7: BPSK → one LLR per symbol, the
real part; QPSK → two LLRs per symbol, real and imaginary parts interleaved; other
modulations are unsupported.  Complex symbols are embedded as pairs
`(re, im) : ℚ × ℚ`. -/
def demapper_ofdm (syms : List (ℚ × ℚ)) (nbpsc : Nat) : Except String (List ℚ) :=
  if nbpsc = 1 then Except.ok (syms.map Prod.fst)
  else if nbpsc = 2 then Except.ok (syms.foldr (fun p acc => p.1 :: p.2 :: acc) [])
  else Except.error "unsupported modulation"

/-- Per-symbol deinterleaving (`rx.py` lines 963-969): reshape the soft bits
into rows of `n_cbps`, index each row by the deinterleaving pattern,
flatten. -/
def deinterleaveRows (ncbps nbpsc : Nat) (soft : List ℚ) : List ℚ :=
  (chunksOf ncbps soft).foldr
    (fun blk acc => (create_deinterleaving_pattern ncbps nbpsc).map (fun j => blk.getD j 0) ++ acc) []

/-- The Viterbi-decoded (still scrambled) bit stream of the DATA field
(`rx.py` lines 971-983): deinterleave per OFDM symbol, truncate to
`2 × (16 + 8·psdu_length + 6)` coded bits, Viterbi-decode. -/
def decodedDataBits (rp : RateParams) (soft : List ℚ) (psdu_length : Nat) : List Bool :=
  convolutional_decoder
    ((deinterleaveRows rp.n_cbps rp.n_bpsc soft).take ((16 + psdu_length * 8 + 6) * 2))

/-- The recovered PSDU-with-CRC byte vector (`rx.py` lines 986-995):
descramble, drop the 16 SERVICE bits, keep `8·psdu_length` bits, pack into
bytes LSB-first. -/
def recoveredBytes (rp : RateParams) (soft : List ℚ) (psdu_length : Nat) : List Nat :=
  packbitsLE
    (((descramble ((decodedDataBits rp soft psdu_length).map
        (fun b => if b then 1 else 0))).drop 16).take (psdu_length * 8))

/-- The successful result of `decode_data_symbols` (`rx.py` lines 984-1009):
`tail_ok` from the last 6 pre-descramble bits, the PSDU bytes with the
trailing 4 bytes split off as the little-endian CRC-32, and `crc_ok`
comparing them with the CRC-32 of the remaining bytes. -/
def dataFieldResult (rp : RateParams) (soft : List ℚ) (psdu_length : Nat) :
    List Nat × Bool × Bool :=
  let decoded := decodedDataBits rp soft psdu_length
  let bytes := recoveredBytes rp soft psdu_length
  (bytes.take (bytes.length - 4),
   (decoded.drop (decoded.length - 6)).all (fun b => b == false),
   decide (crc32 (bytes.take (bytes.length - 4))
      = fromLEbytes (bytes.drop (bytes.length - 4))))

/-- `decode_data_symbols(data_symbols_iq, rate_info, psdu_length)` from
`rx.py` lines 940-1009.  Fallible steps are embedded in `Except`:
an invalid rate raises `KeyError` at the `rate_info['n_bpsc']` access
(line 956), the demapper raises on unsupported modulations, and the
`reshape` raises when the soft-bit count does not match `N × n_cbps`.
Returns `(mac_frame_bytes, tail_ok, crc_ok)`. -/
def decode_data_symbols (rate_info : RateInfo) (syms : List (ℚ × ℚ)) (psdu_length : Nat) :
    Except String (List Nat × Bool × Bool) :=
  match rate_info with
  | RateInfo.invalid => Except.error "KeyError: n_bpsc"
  | RateInfo.valid rp =>
    match demapper_ofdm syms rp.n_bpsc with
    | Except.error e => Except.error e
    | Except.ok soft =>
      if soft.length = syms.length / 48 * rp.n_cbps then
        Except.ok (dataFieldResult rp soft psdu_length)
      else Except.error "cannot reshape"

/-! ## Pilot MRC weights (`rx.py` lines 558-598) -/

/-- `PILOT_CARRIERS_IDX` from `common.py`: FFT bins of the pilots for
subcarriers −21, −7, +7, +21. -/
def PILOT_CARRIERS_IDX : List Nat :=
  [43, 57, 7, 21]

/-- `np.abs(channel_estimate[PILOT_CARRIERS_IDX])`: magnitudes of the
channel estimate at the pilot bins (`rx.py` line 559).  The channel
estimate is a 64-entry complex vector, embedded as `List ℂ`. -/
noncomputable def pilotStrength (H : List ℂ) : List ℝ :=
  PILOT_CARRIERS_IDX.map (fun i => Complex.abs (H.getD i 0))

/-- The pilot combining weights of `ofdm_receiver` (`rx.py` lines 559-598):
`[0.25, 0.25, 0.25, 0.25]` when maximum-ratio combining is disabled
(`use_max_ratio_combining == 0`) or the pilot magnitudes sum to zero,
otherwise the magnitudes normalized by their sum. -/
noncomputable def mrc_weights (useMrc : Nat) (H : List ℂ) : List ℝ :=
  let ps := pilotStrength H
  if useMrc = 0 ∨ ps.sum = 0 then [1/4, 1/4, 1/4, 1/4]
  else ps.map (fun w => w / ps.sum)

/-! ## Packet-detector falling edge and the receiver's rejection gate -/

/-- Modelled from the spec: `packet_detector` in `rx.py` is a student-task
stub.  Spec §4.1: hysteresis flag turns on when the comparison value exceeds
0.85 and off when it drops below 0.65; `falling_edge` is the first index
`i < 1000` at which the flag transitions from 1 to 0, or −1 if none.  This
models the automaton as a function of the comparison-value sequence (the
real-valued ratio front-end is abstracted: the theorem quantifies over every
possible value sequence). -/
def fallingEdgeAux (hi lo : ℚ) : List ℚ → Bool → Nat → Int → Int
  | [], _, _, fe => fe
  | r :: rs, flag, i, fe =>
      let flag' := if hi < r then true else if r < lo then false else flag
      let fe' := if flag = true ∧ flag' = false ∧ i < 1000 ∧ fe = -1 then (i : Int) else fe
      fallingEdgeAux hi lo rs flag' (i + 1) fe'

/-- The `falling_edge_position` produced by the packet detector for a given
sequence of comparison values; −1 means "not found". -/
def packet_detector_falling_edge (ratios : List ℚ) : Int :=
  fallingEdgeAux (17/20) (13/20) ratios false 0 (-1)

/-- The frame-rejection gate of `ofdm_receiver` (`rx.py` lines 353-355):
`if falling_edge_position > 600 or falling_edge_position < 0: return
np.array([])`.  The remainder of the receiver is abstracted as the
continuation `rest`; the theorem holds for every continuation. -/
def ofdm_receiver_gate (fe : Int) (rest : Unit → List (ℚ × ℚ)) : List (ℚ × ℚ) :=
  if 600 < fe ∨ fe < 0 then [] else rest ()

/-! ## Helper lemmas on lists -/

theorem getD_map_lt {α β : Type} (f : α → β) (l : List α) {i : Nat} (h : i < l.length)
    (d : β) (d' : α) : (l.map f).getD i d = f (l.getD i d') := by
  rw [List.getD_eq_getElem _ _ (by simpa using h), List.getElem_map,
    List.getD_eq_getElem _ _ h]

/-! ## Interleaver inversion (claims C2 and C4) -/

theorem invCheckAux_spec {pat : List Nat} {f : Nat → Nat} :
    ∀ {n : Nat}, invCheckAux pat f n = true →
      ∀ k, k < n → f k < pat.length ∧ pat.getD (f k) pat.length = k := by
  intro n
  induction n with
  | zero => intro _ k hk; omega
  | succ m ih =>
    intro h k hk
    rw [invCheckAux, Bool.and_eq_true, Bool.and_eq_true] at h
    obtain ⟨⟨h1, h2⟩, h3⟩ := h
    rcases Nat.lt_succ_iff_lt_or_eq.mp hk with h' | rfl
    · exact ih h3 k h'
    · exact ⟨of_decide_eq_true h1, by simpa using h2⟩

theorem interleaveCheck_48_1 : interleaveCheck 48 1 = true := by decide

theorem interleaveCheck_96_2 : interleaveCheck 96 2 = true := by decide

set_option maxRecDepth 10000 in
theorem interleaveCheck_192_4 : interleaveCheck 192 4 = true := by decide

set_option maxRecDepth 20000 in
theorem interleaveCheck_288_6 : interleaveCheck 288 6 = true := by decide

theorem rate_interleaveCheck {key : Nat} {p : RateParams} (hmem : (key, p) ∈ RATE_MAP) :
    interleaveCheck p.n_cbps p.n_bpsc = true := by
  simp only [RATE_MAP, List.mem_cons, List.not_mem_nil, or_false, Prod.mk.injEq] at hmem
  rcases hmem with ⟨_, rfl⟩ | ⟨_, rfl⟩ | ⟨_, rfl⟩ | ⟨_, rfl⟩ |
    ⟨_, rfl⟩ | ⟨_, rfl⟩ | ⟨_, rfl⟩ | ⟨_, rfl⟩
  · exact interleaveCheck_48_1
  · exact interleaveCheck_48_1
  · exact interleaveCheck_96_2
  · exact interleaveCheck_96_2
  · exact interleaveCheck_192_4
  · exact interleaveCheck_192_4
  · exact interleaveCheck_288_6
  · exact interleaveCheck_288_6

theorem interleave_getD {ncbps nbpsc : Nat} (hc : interleaveCheck ncbps nbpsc = true)
    (b : List Nat) (k : Nat) (hk : k < ncbps) :
    (interleave b ncbps nbpsc).getD (perm2 ncbps nbpsc (perm1 ncbps k)) 0 = b.getD k 0 := by
  rw [interleaveCheck, Bool.and_eq_true] at hc
  obtain ⟨hlen, hinv⟩ := hc
  have hlen' : (create_interleaving_pattern ncbps nbpsc).length = ncbps := by
    simpa using hlen
  obtain ⟨hfk, hpat⟩ := invCheckAux_spec hinv k hk
  rw [interleave, getD_map_lt _ _ hfk 0 (create_interleaving_pattern ncbps nbpsc).length,
    hpat]

/-- C4: for every `(n_cbps, n_bpsc)` pair of `RATE_MAP` and every input
vector `b` of length `n_cbps`, the transmit interleaver's output `o`
satisfies `o[π₂(π₁(k))] = b[k]` for every `k < n_cbps`, with `π₁`, `π₂` the
spec's two permutation formulas. -/
theorem interleave_two_permutation (key : Nat) (p : RateParams)
    (hmem : (key, p) ∈ RATE_MAP) (b : List Nat) (hb : b.length = p.n_cbps)
    (k : Nat) (hk : k < p.n_cbps) :
    (interleave b p.n_cbps p.n_bpsc).getD (perm2 p.n_cbps p.n_bpsc (perm1 p.n_cbps k)) 0
      = b.getD k 0 :=
  interleave_getD (rate_interleaveCheck hmem) b k hk

/-- Witness for C4 at a concrete rate, input vector and index. -/
theorem interleave_two_permutation_witness :
    (interleave (List.range 48) 48 1).getD (perm2 48 1 (perm1 48 3)) 0
      = (List.range 48).getD 3 0 :=
  interleave_two_permutation 0b1101 ⟨"BPSK 1/2", 6, 1, 24, 48⟩ (by decide)
    (List.range 48) (by decide) 3 (by decide)

/-- C2: for every rate entry of `RATE_MAP` and every vector `b` of length
`n_cbps`, indexing `interleave(b)` by the permutation returned by
`create_deinterleaving_pattern(n_cbps, n_bpsc)` yields `b` again. -/
theorem deinterleave_interleave (key : Nat) (p : RateParams)
    (hmem : (key, p) ∈ RATE_MAP) (b : List Nat) (hb : b.length = p.n_cbps) :
    (create_deinterleaving_pattern p.n_cbps p.n_bpsc).map
      (fun j => (interleave b p.n_cbps p.n_bpsc).getD j 0) = b := by
  have hchk := rate_interleaveCheck hmem
  rw [create_deinterleaving_pattern, List.map_map]
  apply List.ext_getElem (by simp [hb])
  intro i h1 h2
  simp only [List.getElem_map, List.getElem_range, Function.comp]
  rw [interleave_getD hchk b i (by simpa using h1)]
  exact List.getD_eq_getElem b 0 h2

/-- Witness for C2 at a concrete rate and input vector. -/
theorem deinterleave_interleave_witness :
    (create_deinterleaving_pattern 48 1).map
      (fun j => (interleave (List.range 48) 48 1).getD j 0) = List.range 48 := by
  have h : ((0b1101, (⟨"BPSK 1/2", 6, 1, 24, 48⟩ : RateParams)) ∈ RATE_MAP) := by decide
  exact deinterleave_interleave 0b1101 ⟨"BPSK 1/2", 6, 1, 24, 48⟩ h (List.range 48) (by decide)

/-! ## Scrambler round trip (claim C3) -/

theorem scrambleAux_append (st : List Nat) (xs ys : List Nat) :
    scrambleAux st (xs ++ ys) = scrambleAux st xs ++ scrambleAux (lfsrNext^[xs.length] st) ys := by
  induction xs generalizing st with
  | nil => simp [scrambleAux]
  | cons x xs ih =>
      simp only [List.cons_append, scrambleAux, List.length_cons, ih (lfsrNext st),
        Function.iterate_succ_apply, List.append_eq]

theorem scrambleAux_involutive (st : List Nat) (ds : List Nat) :
    scrambleAux st (scrambleAux st ds) = ds := by
  induction ds generalizing st with
  | nil => rfl
  | cons d ds ih =>
      simp only [scrambleAux, ih (lfsrNext st), Nat.xor_assoc, Nat.xor_self, Nat.xor_zero]

theorem scrambleAux_length (st : List Nat) (ds : List Nat) :
    (scrambleAux st ds).length = ds.length := by
  induction ds generalizing st with
  | nil => rfl
  | cons d ds ih => simp [scrambleAux, ih]

/-- Over the 7 known-zero service bits, the scrambler emits exactly its
feedback sequence, and the register contents after those 7 steps are those
7 output bits most-recent-first — the state-recovery fact `descramble`
relies on.  Checked for each of the 128 possible initial states. -/
theorem lfsr_state_recovery : ∀ s : Nat, s < 128 →
    [(scrambleAux (stateBits7 s) (List.replicate 7 0)).getD 6 0,
     (scrambleAux (stateBits7 s) (List.replicate 7 0)).getD 5 0,
     (scrambleAux (stateBits7 s) (List.replicate 7 0)).getD 4 0,
     (scrambleAux (stateBits7 s) (List.replicate 7 0)).getD 3 0,
     (scrambleAux (stateBits7 s) (List.replicate 7 0)).getD 2 0,
     (scrambleAux (stateBits7 s) (List.replicate 7 0)).getD 1 0,
     (scrambleAux (stateBits7 s) (List.replicate 7 0)).getD 0 0]
      = lfsrNext^[7] (stateBits7 s) := by decide

theorem take_eq_replicate_zero {l : List Nat} {n : Nat} (hn : n ≤ l.length)
    (h : ∀ i, i < n → l.getD i 0 = 0) : l.take n = List.replicate n 0 := by
  apply List.ext_getElem (by simp [hn])
  intro i h1 h2
  rw [List.length_take, lt_min_iff] at h1
  rw [List.getElem_take, List.getElem_replicate, ← List.getD_eq_getElem l 0]
  exact h i h1.1

/-- C3: for every vector `v` of length at least 7 whose first 7 entries are
zero and every nonzero 7-bit initial state `s`,
`descramble (scramble v s) = v`: the receiver recovers the LFSR state from
the 7 known-zero service bits and undoes the x⁷+x⁴+1 XOR stream. -/
theorem descramble_scramble (v : List Nat) (s : Nat) (hlen : 7 ≤ v.length)
    (hzero : ∀ i, i < 7 → v.getD i 0 = 0) (hs1 : 1 ≤ s) (hs2 : s < 128) :
    descramble (scramble v s) = v := by
  have hv7 : v.take 7 = List.replicate 7 0 := take_eq_replicate_zero hlen hzero
  have hsplit : List.replicate 7 0 ++ v.drop 7 = v := by rw [← hv7, List.take_append_drop]
  have hy : scramble v s
      = scrambleAux (stateBits7 s) (List.replicate 7 0)
        ++ scrambleAux (lfsrNext^[7] (stateBits7 s)) (v.drop 7) := by
    rw [scramble, ← hsplit]
    simpa using scrambleAux_append (stateBits7 s) (List.replicate 7 0) (v.drop 7)
  have hkslen : (scrambleAux (stateBits7 s) (List.replicate 7 0)).length = 7 := by
    rw [scrambleAux_length]; simp
  have hdrop : (scramble v s).drop 7
      = scrambleAux (lfsrNext^[7] (stateBits7 s)) (v.drop 7) := by
    have hdl := List.drop_left (scrambleAux (stateBits7 s) (List.replicate 7 0))
      (scrambleAux (lfsrNext^[7] (stateBits7 s)) (v.drop 7))
    rw [hkslen] at hdl
    rw [hy]
    exact hdl
  have hget : ∀ i, i < 7 → (scramble v s).getD i 0
      = (scrambleAux (stateBits7 s) (List.replicate 7 0)).getD i 0 := by
    intro i hi
    rw [hy]
    exact List.getD_append _ _ 0 i (by omega)
  have hylen : 7 ≤ (scramble v s).length := by
    rw [scramble, scrambleAux_length]; exact hlen
  rw [descramble]
  rw [hget 6 (by omega), hget 5 (by omega), hget 4 (by omega), hget 3 (by omega),
    hget 2 (by omega), hget 1 (by omega), hget 0 (by omega)]
  rw [lfsr_state_recovery s hs2, hdrop, scrambleAux_involutive]
  rw [min_eq_left hylen]
  exact hsplit

/-- Witness for C3 at a concrete vector (byte-valued entries) and state. -/
theorem descramble_scramble_witness :
    descramble (scramble ([0, 0, 0, 0, 0, 0, 0, 5, 200, 3] : List Nat) 93)
      = [0, 0, 0, 0, 0, 0, 0, 5, 200, 3] :=
  descramble_scramble [0, 0, 0, 0, 0, 0, 0, 5, 200, 3] 93 (by decide)
    (by decide) (by decide) (by decide)

/-! ## SIGNAL field layout (claims C5 and C7) -/

theorem length_toBitsLE : ∀ (k x : Nat), (toBitsLE k x).length = k := by
  intro k
  induction k with
  | zero => intro x; rfl
  | succ m ih => intro x; simp [toBitsLE, ih]

theorem fromBitsLE_toBitsLE : ∀ (k x : Nat), x < 2 ^ k → fromBitsLE (toBitsLE k x) = x := by
  intro k
  induction k with
  | zero => intro x h; interval_cases x; rfl
  | succ m ih =>
      intro x h
      have h2 : 2 ^ (m + 1) = 2 * 2 ^ m := by ring
      rw [toBitsLE, fromBitsLE, ih (x / 2) (by omega)]
      omega

theorem fromBitsMSB_toBitsMSB : ∀ (k x : Nat), x < 2 ^ k → fromBitsMSB (toBitsMSB k x) = x := by
  have key : ∀ (k x : Nat), x < 2 ^ k →
      List.foldr (fun x acc => 2 * acc + x) 0 (toBitsLE k x) = x := by
    intro k
    induction k with
    | zero => intro x h; interval_cases x; rfl
    | succ m ih =>
        intro x h
        have h2 : 2 ^ (m + 1) = 2 * 2 ^ m := by ring
        rw [toBitsLE, List.foldr_cons, ih (x / 2) (by omega)]
        omega
  intro k x h
  rw [fromBitsMSB, toBitsMSB, List.foldl_reverse]
  exact key k x h

theorem fromBitsLE_eq_sum (l : List Nat) :
    fromBitsLE l = ∑ i ∈ Finset.range l.length, l.getD i 0 * 2 ^ i := by
  induction l with
  | nil => rfl
  | cons b bs ih =>
      rw [fromBitsLE, ih, List.length_cons, Finset.sum_range_succ']
      have hD : ∀ i : Nat, (b :: bs).getD (i + 1) 0 = bs.getD i 0 := fun i => rfl
      have hD0 : (b :: bs).getD 0 0 = b := rfl
      simp only [hD, hD0, pow_succ, pow_zero, one_mul, Finset.mul_sum]
      ring_nf
      rw [Nat.add_comm]
      congr 1
      apply Finset.sum_congr rfl
      intro i _
      ring

theorem sum_take_eq_sum (l : List Nat) (n : Nat) (hn : n ≤ l.length) :
    (l.take n).sum = ∑ i ∈ Finset.range n, l.getD i 0 := by
  induction n generalizing l with
  | zero => simp
  | succ m ih =>
      rcases l with _ | ⟨a, l⟩
      · simp at hn
      · rw [List.take_succ_cons, List.sum_cons, Finset.sum_range_succ',
          ih l (by simpa using hn)]
        have hD : ∀ i : Nat, (a :: l).getD (i + 1) 0 = l.getD i 0 := fun i => rfl
        have hD0 : (a :: l).getD 0 0 = a := rfl
        simp only [hD, hD0]
        omega

theorem getD_drop_take (l : List Nat) (m k i : Nat) (hik : i < k) (hil : m + i < l.length) :
    ((l.drop m).take k).getD i 0 = l.getD (m + i) 0 := by
  have h1 : i < ((l.drop m).take k).length := by
    simp only [List.length_take, List.length_drop, lt_min_iff]
    omega
  rw [List.getD_eq_getElem _ _ h1, List.getElem_take, List.getElem_drop,
    List.getD_eq_getElem _ _ hil]

/-- C5: `decode_signal_field` parses bits 0-3 as the rate key (MSB first),
bits 5-16 as the PSDU length LSB-first, sets `parity_ok` exactly when bit 17
equals the sum of bits 0-16 mod 2, sets `tail_ok` exactly when bits 18-23
are all zero; and `create_signal_field` produces exactly this 24-bit layout,
so parsing its output recovers the rate key and length with both checks
passing. -/
theorem signal_field_layout :
    (∀ bits : List Nat, bits.length = 24 →
      (decodeSignalBits bits).rate_info = rateInfoLookup
          (bits.getD 0 0 * 8 + bits.getD 1 0 * 4 + bits.getD 2 0 * 2 + bits.getD 3 0) ∧
      (decodeSignalBits bits).length = ∑ j ∈ Finset.range 12, bits.getD (5 + j) 0 * 2 ^ j ∧
      ((decodeSignalBits bits).parity_ok = true ↔
        (∑ j ∈ Finset.range 17, bits.getD j 0) % 2 = bits.getD 17 0) ∧
      ((decodeSignalBits bits).tail_ok = true ↔
        ∀ i, 18 ≤ i → i < 24 → bits.getD i 0 = 0)) ∧
    (∀ rate_key psdu_len : Nat, rate_key < 16 → psdu_len < 4096 →
      (signalField24 rate_key psdu_len).length = 24 ∧
      decodeSignalBits (signalField24 rate_key psdu_len)
        = ⟨rateInfoLookup rate_key, psdu_len, true, true⟩) := by
  constructor
  · intro bits hb
    refine ⟨?_, ?_, ?_, ?_⟩
    · obtain ⟨b0, b1, b2, b3, rest, rfl⟩ :
          ∃ b0 b1 b2 b3 rest, bits = b0 :: b1 :: b2 :: b3 :: rest := by
        rcases bits with _ | ⟨b0, bits⟩
        · simp at hb
        rcases bits with _ | ⟨b1, bits⟩
        · simp at hb
        rcases bits with _ | ⟨b2, bits⟩
        · simp at hb
        rcases bits with _ | ⟨b3, rest⟩
        · simp at hb
        exact ⟨b0, b1, b2, b3, rest, rfl⟩
      have hmsb : fromBitsMSB [b0, b1, b2, b3] = b0 * 8 + b1 * 4 + b2 * 2 + b3 := by
        simp only [fromBitsMSB, List.foldl_cons, List.foldl_nil]
        ring
      simp only [decodeSignalBits, List.take_succ_cons, List.take_zero, hmsb,
        List.getD_cons_zero, List.getD_cons_succ]
    · simp only [decodeSignalBits]
      have hlen12 : ((bits.drop 5).take 12).length = 12 := by
        simp only [List.length_take, List.length_drop, hb]
        decide
      rw [fromBitsLE_eq_sum, hlen12]
      apply Finset.sum_congr rfl
      intro i hi
      rw [Finset.mem_range] at hi
      rw [getD_drop_take bits 5 12 i hi (by omega)]
    · simp only [decodeSignalBits]
      simp only [decide_eq_true_iff]
      rw [sum_take_eq_sum bits 17 (by omega)]
    · simp only [decodeSignalBits]
      simp only [List.all_eq_true, beq_iff_eq]
      constructor
      · intro h i h18 h24
        have h1 : i - 18 < ((bits.drop 18).take 6).length := by
          simp only [List.length_take, List.length_drop, hb, lt_min_iff]
          omega
        have hmem : bits.getD i 0 ∈ (bits.drop 18).take 6 := by
          rw [List.mem_iff_getElem]
          refine ⟨i - 18, h1, ?_⟩
          have hgd := getD_drop_take bits 18 6 (i - 18) (by omega) (by omega)
          rw [List.getD_eq_getElem _ _ h1] at hgd
          rw [hgd]
          congr 1
          omega
        exact h _ hmem
      · intro h x hx
        rw [List.mem_iff_getElem] at hx
        obtain ⟨j, hj, rfl⟩ := hx
        have hj6 : j < 6 := by
          simp only [List.length_take, List.length_drop, hb, lt_min_iff] at hj
          omega
        rw [← List.getD_eq_getElem _ 0 hj, getD_drop_take bits 18 6 j hj6 (by omega)]
        exact h (18 + j) (by omega) (by omega)
  · intro rate_key psdu_len hrk hlen
    have hA : (toBitsMSB 4 rate_key).length = 4 := by simp [toBitsMSB, length_toBitsLE]
    have hB : (toBitsLE 12 psdu_len).length = 12 := length_toBitsLE 12 psdu_len
    have hinfo : (toBitsMSB 4 rate_key ++ [0] ++ toBitsLE 12 psdu_len).length = 17 := by
      simp only [List.length_append, List.length_cons, List.length_nil, hA, hB]
    have h24 : (signalField24 rate_key psdu_len).length = 24 := by
      simp only [signalField24, List.length_append, List.length_cons, List.length_nil,
        List.length_replicate, hA, hB]
    refine ⟨h24, ?_⟩
    rw [signalField24]
    set A := toBitsMSB 4 rate_key with hAdef
    set B := toBitsLE 12 psdu_len with hBdef
    set info := A ++ [0] ++ B with hinfodef
    set p := info.sum % 2 with hpdef
    have hF17 : (info ++ [p] ++ List.replicate 6 0).take 17 = info := by
      rw [List.append_assoc, List.take_left' hinfo]
    have hF4 : (info ++ [p] ++ List.replicate 6 0).take 4 = A := by
      have h1 : (info ++ [p] ++ List.replicate 6 0).take 4 = info.take 4 := by
        rw [List.append_assoc]
        exact List.take_append_of_le_length (by omega)
      rw [h1, hinfodef, List.append_assoc]
      rw [List.take_append_of_le_length (by omega), ← hA, List.take_length]
    have hFd5 : (info ++ [p] ++ List.replicate 6 0).drop 5 = B ++ ([p] ++ List.replicate 6 0) := by
      have hassoc : info ++ [p] ++ List.replicate 6 0
          = (A ++ [0]) ++ (B ++ ([p] ++ List.replicate 6 0)) := by
        simp only [hinfodef, List.append_assoc]
      rw [hassoc]
      exact List.drop_left' (by simp only [List.length_append, List.length_cons,
        List.length_nil, hA])
    have hFg17 : (info ++ [p] ++ List.replicate 6 0).getD 17 0 = p := by
      rw [List.append_assoc, List.getD_append_right info _ 0 17 (by omega), hinfo]
      rfl
    have hFd18 : (info ++ [p] ++ List.replicate 6 0).drop 18 = List.replicate 6 0 :=
      List.drop_left' (by simp only [List.length_append, List.length_cons,
        List.length_nil, hinfo])
    rw [decodeSignalBits]
    simp only [SignalParams.mk.injEq]
    refine ⟨?_, ?_, ?_, ?_⟩
    · rw [hF4, hAdef, fromBitsMSB_toBitsMSB 4 rate_key (by omega)]
    · rw [hFd5, List.take_left' hB, hBdef, fromBitsLE_toBitsLE 12 psdu_len (by omega)]
    · rw [hFg17, hF17]
      simp
    · rw [hFd18]
      decide

/-- Witness for C5: parsing the SIGNAL word built for rate key 5 (QPSK 1/2)
and length 1000 recovers both with passing checks. -/
theorem signal_field_layout_witness :
    decodeSignalBits (signalField24 5 1000)
      = ⟨rateInfoLookup 5, 1000, true, true⟩ :=
  (signal_field_layout.2 5 1000 (by decide) (by decide)).2

/-- C7 (evaluating the code at the failing input): the all-zero decoded
SIGNAL word has rate key 0, which is not in `RATE_MAP`, so
`decode_signal_field` reports the invalid-rate marker — but
`decode_data_symbols` applied to that marker fails at the
`rate_info['n_bpsc']` access (`rx.py` line 956) with an uncaught `KeyError`
for every input, instead of returning an empty PSDU with a reason. -/
theorem invalid_rate_key_error :
    (decodeSignalBits (List.replicate 24 0)).rate_info = RateInfo.invalid ∧
    (∀ (syms : List (ℚ × ℚ)) (psdu_len : Nat),
      decode_data_symbols RateInfo.invalid syms psdu_len
        = Except.error "KeyError: n_bpsc") ∧
    decode_data_symbols (decodeSignalBits (List.replicate 24 0)).rate_info [] 0
      = Except.error "KeyError: n_bpsc" := by
  refine ⟨by decide, fun syms len => rfl, rfl⟩

/-! ## Pilot MRC weights (claim C8) -/

/-- C8: the 4-element pilot combining weight vector computed by
`ofdm_receiver` always has non-negative entries summing to 1; it equals
`[1/4, 1/4, 1/4, 1/4]` whenever maximum-ratio combining is disabled or the
pilot-bin channel magnitudes sum to zero, and otherwise equals those
magnitudes normalized by their sum. -/
theorem mrc_weights_invariant (useMrc : Nat) (H : List ℂ) :
    (∀ w ∈ mrc_weights useMrc H, 0 ≤ w) ∧
    (mrc_weights useMrc H).sum = 1 ∧
    ((useMrc = 0 ∨ (pilotStrength H).sum = 0) →
      mrc_weights useMrc H = [1/4, 1/4, 1/4, 1/4]) ∧
    (useMrc ≠ 0 → (pilotStrength H).sum ≠ 0 →
      mrc_weights useMrc H
        = (pilotStrength H).map (fun w => w / (pilotStrength H).sum)) := by
  have hps : ∀ w ∈ pilotStrength H, 0 ≤ w := by
    intro w hw
    rw [pilotStrength, List.mem_map] at hw
    obtain ⟨i, _, rfl⟩ := hw
    exact AbsoluteValue.nonneg Complex.abs _
  by_cases hcond : useMrc = 0 ∨ (pilotStrength H).sum = 0
  · have hw : mrc_weights useMrc H = [1/4, 1/4, 1/4, 1/4] := by
      rw [mrc_weights, if_pos hcond]
    refine ⟨?_, ?_, fun _ => hw, ?_⟩
    · rw [hw]; intro w hmem; rcases List.mem_cons.mp hmem with rfl | hmem <;>
        [norm_num; skip]
      rcases List.mem_cons.mp hmem with rfl | hmem <;> [norm_num; skip]
      rcases List.mem_cons.mp hmem with rfl | hmem <;> [norm_num; skip]
      rcases List.mem_cons.mp hmem with rfl | hmem <;> [norm_num; simp at hmem]
    · rw [hw]; norm_num
    · intro h1 h2; rcases hcond with h | h
      · exact absurd h h1
      · exact absurd h h2
  · push_neg at hcond
    have hsne : (pilotStrength H).sum ≠ 0 := hcond.2
    have hspos : 0 < (pilotStrength H).sum :=
      lt_of_le_of_ne (List.sum_nonneg hps) (Ne.symm hsne)
    have hw : mrc_weights useMrc H
        = (pilotStrength H).map (fun w => w / (pilotStrength H).sum) := by
      rw [mrc_weights, if_neg]
      push_neg
      exact hcond
    refine ⟨?_, ?_, ?_, fun _ _ => hw⟩
    · rw [hw]; intro w hmem
      rw [List.mem_map] at hmem
      obtain ⟨x, hx, rfl⟩ := hmem
      exact div_nonneg (hps x hx) (le_of_lt hspos)
    · have hs2 : (pilotStrength H).sum
          = Complex.abs (H.getD 43 0) + (Complex.abs (H.getD 57 0)
            + (Complex.abs (H.getD 7 0) + Complex.abs (H.getD 21 0))) := by
        rw [pilotStrength, PILOT_CARRIERS_IDX]
        simp only [List.map_cons, List.map_nil, List.sum_cons, List.sum_nil, add_zero]
      have hD : Complex.abs (H.getD 43 0) + (Complex.abs (H.getD 57 0)
          + (Complex.abs (H.getD 7 0) + Complex.abs (H.getD 21 0))) ≠ 0 := hs2 ▸ hsne
      rw [hw, pilotStrength, PILOT_CARRIERS_IDX]
      simp only [List.map_cons, List.map_nil, List.sum_cons, List.sum_nil, add_zero,
        pilotStrength, PILOT_CARRIERS_IDX]
      rw [div_add_div_same, div_add_div_same, div_add_div_same, div_self hD]
    · intro h; rcases h with h | h
      · exact absurd h hcond.1
      · exact absurd h hcond.2

/-- Witness for C8 at a concrete channel estimate and flag. -/
theorem mrc_weights_invariant_witness :
    (mrc_weights 0 []).sum = 1 ∧ mrc_weights 0 [] = [1/4, 1/4, 1/4, 1/4] :=
  ⟨(mrc_weights_invariant 0 []).2.1, (mrc_weights_invariant 0 []).2.2.1 (Or.inl rfl)⟩

/-! ## Detection-miss rejection (claim C9) -/

theorem fallingEdgeAux_range (hi lo : ℚ) :
    ∀ (rs : List ℚ) (flag : Bool) (i : Nat) (fe : Int),
      (fe = -1 ∨ (1 ≤ fe ∧ fe < 1000)) → (flag = true → 1 ≤ i) →
      (fallingEdgeAux hi lo rs flag i fe = -1 ∨
        (1 ≤ fallingEdgeAux hi lo rs flag i fe ∧ fallingEdgeAux hi lo rs flag i fe < 1000)) := by
  intro rs
  induction rs with
  | nil => intro flag i fe hfe _; simpa [fallingEdgeAux] using hfe
  | cons r rs ih =>
      intro flag i fe hfe hflag
      simp only [fallingEdgeAux]
      by_cases hc : flag = true
          ∧ (if hi < r then true else if r < lo then false else flag) = false
          ∧ i < 1000 ∧ fe = -1
      · rw [if_pos hc]
        apply ih
        · have hi1 : 1 ≤ i := hflag hc.1
          have hi2 : i < 1000 := hc.2.2.1
          right
          omega
        · intro _
          omega
      · rw [if_neg hc]
        apply ih
        · exact hfe
        · intro _
          omega

theorem pdet_falling_edge_range (ratios : List ℚ) :
    packet_detector_falling_edge ratios = -1 ∨
      (1 ≤ packet_detector_falling_edge ratios ∧
        packet_detector_falling_edge ratios < 1000) :=
  fallingEdgeAux_range (17/20) (13/20) ratios false 0 (-1) (Or.inl rfl) (by simp)

/-- C9: whenever the falling-edge position produced by the packet detector
lies outside the interval (0, 600] — which covers the −1 not-found sentinel
and the value 0, the latter being unreachable because the hysteresis flag
starts low — `ofdm_receiver` drops the frame and returns an empty array,
for every input value sequence and every continuation of the pipeline. -/
theorem detection_miss_rejected (ratios : List ℚ) (rest : Unit → List (ℚ × ℚ))
    (h : packet_detector_falling_edge ratios ≤ 0 ∨
      600 < packet_detector_falling_edge ratios) :
    ofdm_receiver_gate (packet_detector_falling_edge ratios) rest = [] := by
  have hr := pdet_falling_edge_range ratios
  rw [ofdm_receiver_gate, if_pos]
  rcases hr with h1 | h1 <;> rcases h with h2 | h2 <;> omega

/-- Witness for C9: the empty input produces the −1 sentinel and the frame
is dropped. -/
theorem detection_miss_rejected_witness :
    ofdm_receiver_gate (packet_detector_falling_edge []) (fun _ => [(1, 1)]) = [] :=
  detection_miss_rejected [] (fun _ => [(1, 1)]) (by decide)

/-! ## DATA-field CRC handling (claims C6 and C10) -/

theorem qpsk_demap_length (syms : List (ℚ × ℚ)) :
    (syms.foldr (fun p acc => p.1 :: p.2 :: acc) ([] : List ℚ)).length = 2 * syms.length := by
  induction syms with
  | nil => rfl
  | cons p ps ih =>
      simp only [List.foldr_cons, List.length_cons, ih, List.length_cons]
      omega

theorem decode_data_symbols_ok (key : Nat) (rp : RateParams) (hmem : (key, rp) ∈ RATE_MAP)
    (hb : rp.n_bpsc = 1 ∨ rp.n_bpsc = 2) (syms : List (ℚ × ℚ)) (hlen : 48 ∣ syms.length)
    (psdu_length : Nat) :
    ∃ soft : List ℚ, demapper_ofdm syms rp.n_bpsc = Except.ok soft ∧
      decode_data_symbols (RateInfo.valid rp) syms psdu_length
        = Except.ok (dataFieldResult rp soft psdu_length) := by
  have hcb : rp.n_cbps = 48 * rp.n_bpsc := by
    simp only [RATE_MAP, List.mem_cons, List.not_mem_nil, or_false, Prod.mk.injEq] at hmem
    rcases hmem with ⟨_, rfl⟩ | ⟨_, rfl⟩ | ⟨_, rfl⟩ | ⟨_, rfl⟩ |
      ⟨_, rfl⟩ | ⟨_, rfl⟩ | ⟨_, rfl⟩ | ⟨_, rfl⟩ <;> rfl
  obtain ⟨q, hq⟩ := hlen
  rcases hb with hb | hb
  · have hdm : demapper_ofdm syms rp.n_bpsc = Except.ok (syms.map Prod.fst) := by
      rw [hb, demapper_ofdm, if_pos rfl]
    have hguard : (syms.map Prod.fst).length = syms.length / 48 * rp.n_cbps := by
      rw [List.length_map, hcb, hb, hq, Nat.mul_div_cancel_left q (by norm_num)]
      ring
    refine ⟨syms.map Prod.fst, hdm, ?_⟩
    simp only [decode_data_symbols, hdm]
    rw [if_pos hguard]
  · have hdm : demapper_ofdm syms rp.n_bpsc
        = Except.ok (syms.foldr (fun p acc => p.1 :: p.2 :: acc) []) := by
      rw [hb, demapper_ofdm]
      rfl
    have hguard : (syms.foldr (fun p acc => p.1 :: p.2 :: acc) ([] : List ℚ)).length
        = syms.length / 48 * rp.n_cbps := by
      rw [qpsk_demap_length, hcb, hb, hq, Nat.mul_div_cancel_left q (by norm_num)]
      ring
    refine ⟨syms.foldr (fun p acc => p.1 :: p.2 :: acc) [], hdm, ?_⟩
    simp only [decode_data_symbols, hdm]
    rw [if_pos hguard]

/-- C6: for every supported rate and well-formed symbol input,
`decode_data_symbols` succeeds and returns exactly: the recovered byte
vector minus its trailing 4 bytes as the PSDU, and `crc_ok` set to whether
the CRC-32 (reversed polynomial `0xEDB88320`, initial value all-ones, final
complement) of those PSDU bytes equals the trailing 4 bytes read as a
little-endian integer.  The returned PSDU bytes do not depend on the
comparison, so they are still returned when `crc_ok` is false. -/
theorem crc_handling (key : Nat) (rp : RateParams) (hmem : (key, rp) ∈ RATE_MAP)
    (hb : rp.n_bpsc = 1 ∨ rp.n_bpsc = 2) (syms : List (ℚ × ℚ)) (hlen : 48 ∣ syms.length)
    (psdu_length : Nat) :
    ∃ soft : List ℚ, demapper_ofdm syms rp.n_bpsc = Except.ok soft ∧
      decode_data_symbols (RateInfo.valid rp) syms psdu_length
        = Except.ok
            ((recoveredBytes rp soft psdu_length).take
                ((recoveredBytes rp soft psdu_length).length - 4),
             ((decodedDataBits rp soft psdu_length).drop
                ((decodedDataBits rp soft psdu_length).length - 6)).all (fun b => b == false),
             decide (crc32 ((recoveredBytes rp soft psdu_length).take
                  ((recoveredBytes rp soft psdu_length).length - 4))
               = fromLEbytes ((recoveredBytes rp soft psdu_length).drop
                  ((recoveredBytes rp soft psdu_length).length - 4)))) := by
  obtain ⟨soft, hdm, hdec⟩ := decode_data_symbols_ok key rp hmem hb syms hlen psdu_length
  exact ⟨soft, hdm, hdec⟩

/-- Witness for C6 at the QPSK 1/2 rate and a concrete (empty) symbol
vector. -/
theorem crc_handling_witness :
    ∃ soft : List ℚ, demapper_ofdm [] 2 = Except.ok soft ∧
      decode_data_symbols (RateInfo.valid ⟨"QPSK 1/2", 12, 2, 48, 96⟩) [] 3
        = Except.ok
            ((recoveredBytes ⟨"QPSK 1/2", 12, 2, 48, 96⟩ soft 3).take
                ((recoveredBytes ⟨"QPSK 1/2", 12, 2, 48, 96⟩ soft 3).length - 4),
             ((decodedDataBits ⟨"QPSK 1/2", 12, 2, 48, 96⟩ soft 3).drop
                ((decodedDataBits ⟨"QPSK 1/2", 12, 2, 48, 96⟩ soft 3).length - 6)).all
                  (fun b => b == false),
             decide (crc32 ((recoveredBytes ⟨"QPSK 1/2", 12, 2, 48, 96⟩ soft 3).take
                  ((recoveredBytes ⟨"QPSK 1/2", 12, 2, 48, 96⟩ soft 3).length - 4))
               = fromLEbytes ((recoveredBytes ⟨"QPSK 1/2", 12, 2, 48, 96⟩ soft 3).drop
                  ((recoveredBytes ⟨"QPSK 1/2", 12, 2, 48, 96⟩ soft 3).length - 4)))) :=
  crc_handling 0b0101 ⟨"QPSK 1/2", 12, 2, 48, 96⟩ (by decide) (Or.inr rfl) []
    (by decide) 3

/-- C10: when the PSDU length from the SIGNAL field is 0,
`decode_data_symbols` returns an empty PSDU byte vector with
`crc_ok = true`, because the recovered byte vector is empty, the CRC-32 of
zero bytes is 0, and the integer decoded from the empty trailing CRC byte
slice is also 0. -/
theorem psdu_length_zero (key : Nat) (rp : RateParams) (hmem : (key, rp) ∈ RATE_MAP)
    (hb : rp.n_bpsc = 1 ∨ rp.n_bpsc = 2) (syms : List (ℚ × ℚ)) (hlen : 48 ∣ syms.length) :
    ∃ (soft : List ℚ) (tailok : Bool),
      demapper_ofdm syms rp.n_bpsc = Except.ok soft ∧
      decode_data_symbols (RateInfo.valid rp) syms 0 = Except.ok ([], tailok, true) ∧
      recoveredBytes rp soft 0 = [] ∧ crc32 [] = 0 ∧ fromLEbytes [] = 0 := by
  obtain ⟨soft, hdm, hdec⟩ := decode_data_symbols_ok key rp hmem hb syms hlen 0
  refine ⟨soft,
    ((decodedDataBits rp soft 0).drop ((decodedDataBits rp soft 0).length - 6)).all
      (fun b => b == false), hdm, ?_, rfl, by decide, rfl⟩
  have hB : recoveredBytes rp soft 0 = [] := rfl
  have hcrc : (decide (crc32 [] = fromLEbytes ([] : List Nat)) : Bool) = true := by decide
  rw [hdec]
  simp only [dataFieldResult, hB, List.length_nil, Nat.zero_sub, List.take_nil,
    List.drop_nil, hcrc]

/-! ## Viterbi round trip (claim C1): trellis arithmetic -/

theorem nextState_lt {s : Nat} (h : s < 64) (b : Bool) : nextState s b < 64 := by
  cases b <;> simp [nextState] <;> omega

theorem predState_lt (s : Nat) (j : Bool) : predState s j < 64 := by
  cases j <;> simp [predState] <;> omega

theorem inBit_nextState {s : Nat} (h : s < 64) (b : Bool) : inBit (nextState s b) = b := by
  cases b
  · have hd : ¬ (32 ≤ s / 2 + if false then 32 else 0) := by simp; omega
    exact decide_eq_false (by simpa [nextState] using hd)
  · have hd : 32 ≤ s / 2 + if true then 32 else 0 := by simp
    exact decide_eq_true (by simpa [nextState] using hd)

theorem nextState_predState {s : Nat} (h : s < 64) (j : Bool) :
    nextState (predState s j) (inBit s) = s := by
  by_cases hb : 32 ≤ s
  · have hd : inBit s = true := decide_eq_true hb
    cases j <;> simp [predState, nextState, hd] <;> omega
  · have hd : inBit s = false := decide_eq_false hb
    cases j <;> simp [predState, nextState, hd] <;> omega

theorem predState_nextState {s : Nat} (h : s < 64) (b : Bool) :
    predState (nextState s b) (decide (s % 2 = 1)) = s := by
  by_cases h2 : s % 2 = 1
  · have hd : decide (s % 2 = 1) = true := decide_eq_true h2
    cases b <;> simp [predState, nextState, hd] <;> omega
  · have hd : decide (s % 2 = 1) = false := decide_eq_false h2
    cases b <;> simp [predState, nextState, hd] <;> omega

theorem xor_left_inj {t x y : Bool} (h : x.xor t = y.xor t) : x = y := by
  cases x <;> cases y <;> cases t <;> simp_all

theorem outA_ne {x y : Bool} (h : x ≠ y) (s : Nat) : outA x s ≠ outA y s := by
  intro heq
  exact h (xor_left_inj heq)

theorem runState_cons (s : Nat) (x : Bool) (xs : List Bool) :
    runState s (x :: xs) = runState (nextState s x) xs := rfl

theorem runState_append (s : Nat) (ys : List Bool) (b : Bool) :
    runState s (ys ++ [b]) = nextState (runState s ys) b := by
  simp [runState, List.foldl_append]

theorem runState_lt : ∀ (xs : List Bool) {s : Nat}, s < 64 → runState s xs < 64 := by
  intro xs
  induction xs with
  | nil => intro s h; exact h
  | cons x xs ih => intro s h; rw [runState_cons]; exact ih (nextState_lt h x)

theorem tbWalk_length : ∀ (tbs : List (List Bool)) (s : Nat), (tbWalk tbs s).length = tbs.length := by
  intro tbs
  induction tbs with
  | nil => intro s; rfl
  | cons tb older ih => intro s; simp [tbWalk, ih]

theorem getD_range_map {β : Type} (f : Nat → β) {n i : Nat} (h : i < n) (d : β) :
    ((List.range n).map f).getD i d = f i := by
  rw [getD_map_lt f (List.range n) (by simpa using h) d 0,
    List.getD_eq_getElem _ _ (by simpa using h), List.getElem_range]

theorem getD_replicate_top : ∀ (n i : Nat), (List.replicate n (⊤ : WithTop ℚ)).getD i ⊤ = ⊤ := by
  intro n
  induction n with
  | zero => intro i; rfl
  | succ m ih =>
      intro i
      rcases i with _ | i
      · rfl
      · exact ih i

theorem vitInit_getD_pos {s : Nat} (h : s ≠ 0) : vitInit.getD s ⊤ = ⊤ := by
  rcases s with _ | m
  · exact absurd rfl h
  · exact getD_replicate_top 63 m

theorem pathCost_append (bmf : (Bool × Bool) → (ℚ × ℚ) → ℚ) :
    ∀ (P : List (ℚ × ℚ)) (p : List Bool) (s : Nat) (r : ℚ × ℚ) (b : Bool),
    P.length = p.length →
    pathCost bmf s (P ++ [r]) (p ++ [b])
      = pathCost bmf s P p + bmf (outA b (runState s p), outB b (runState s p)) r := by
  intro P
  induction P with
  | nil =>
      intro p s r b hl
      have hp : p = [] := List.length_eq_zero.mp hl.symm
      subst hp
      simp only [List.nil_append, pathCost, runState, List.foldl_nil]
      ring
  | cons r' P' ih =>
      intro p s r b hl
      rcases p with _ | ⟨x, p'⟩
      · simp at hl
      · simp only [List.cons_append, pathCost, List.append_eq]
        rw [ih p' (nextState s x) r b (by simpa using hl), runState_cons]
        ring

/-! ## Viterbi round trip (claim C1): branch-metric facts -/

theorem bmCorr_self (a b : Bool) : bmCorr (a, b) (bip a, bip b) = -2 := by
  cases a <;> cases b <;> norm_num [bmCorr, bip]

theorem bmCorr_term_ge (a : Bool) (r : ℚ) (hr : r = 1 ∨ r = -1) :
    -1 ≤ (1 - 2 * (if a then (1 : ℚ) else 0)) * r := by
  cases a <;> rcases hr with rfl | rfl <;> norm_num

theorem bmCorr_ge (c : Bool × Bool) (r : ℚ × ℚ) (h1 : r.1 = 1 ∨ r.1 = -1)
    (h2 : r.2 = 1 ∨ r.2 = -1) : -2 ≤ bmCorr c r := by
  have t1 := bmCorr_term_ge c.1 r.1 h1
  have t2 := bmCorr_term_ge c.2 r.2 h2
  rw [bmCorr]
  linarith

theorem bmCorr_mismatch_term (a b : Bool) (h : a ≠ b) :
    (1 - 2 * (if a then (1 : ℚ) else 0)) * bip b = 1 := by
  cases a <;> cases b <;> first | (exact absurd rfl h) | norm_num [bip]

theorem bip_pm_one (c : Bool) : bip c = 1 ∨ bip c = -1 := by
  cases c <;> simp [bip]

/-! ## Viterbi round trip (claim C1): the dynamic-programming invariant -/

theorem vitInv_init (bmf : (Bool × Bool) → (ℚ × ℚ) → ℚ) : VitInv bmf [] vitInit [] := by
  refine ⟨rfl, rfl, ?_, ?_⟩
  · intro s _ hne
    rcases Nat.eq_zero_or_pos s with rfl | hpos
    · exact ⟨rfl, rfl⟩
    · exact absurd (vitInit_getD_pos (by omega)) hne
  · intro xs hlen
    have hx : xs = [] := List.length_eq_zero.mp hlen
    subst hx
    exact le_of_eq rfl

theorem vitStep_inv (bmf : (Bool × Bool) → (ℚ × ℚ) → ℚ) (P : List (ℚ × ℚ))
    (pm : List (WithTop ℚ)) (tbs : List (List Bool)) (r : ℚ × ℚ)
    (h : VitInv bmf P pm tbs) :
    VitInv bmf (P ++ [r]) (vitStep bmf pm r).1 ((vitStep bmf pm r).2 :: tbs) := by
  obtain ⟨hpm, htbs, hsound, hmin⟩ := h
  have hpm' : (vitStep bmf pm r).1.length = 64 := by simp [vitStep]
  have htb' : ((vitStep bmf pm r).2 :: tbs).length = (P ++ [r]).length := by
    simp [htbs]
  have hgetpm : ∀ s, s < 64 → (vitStep bmf pm r).1.getD s ⊤
      = min (branchCand bmf pm r s false) (branchCand bmf pm r s true) := by
    intro s hs
    exact getD_range_map
      (fun s => min (branchCand bmf pm r s false) (branchCand bmf pm r s true)) hs
      (⊤ : WithTop ℚ)
  have hgettb : ∀ s, s < 64 → (vitStep bmf pm r).2.getD s false
      = decide (branchCand bmf pm r s true < branchCand bmf pm r s false) := by
    intro s hs
    exact getD_range_map
      (fun s => decide (branchCand bmf pm r s true < branchCand bmf pm r s false)) hs false
  refine ⟨hpm', htb', ?_, ?_⟩
  · intro s hs hne
    set j := (vitStep bmf pm r).2.getD s false with hj
    have hchosen : min (branchCand bmf pm r s false) (branchCand bmf pm r s true)
        = branchCand bmf pm r s j := by
      rw [hj, hgettb s hs]
      by_cases hlt : branchCand bmf pm r s true < branchCand bmf pm r s false
      · rw [decide_eq_true hlt]
        exact (min_eq_right (le_of_lt hlt)).symm ▸ rfl
      · rw [decide_eq_false hlt]
        exact (min_eq_left (le_of_not_lt hlt)).symm ▸ rfl
    rw [hgetpm s hs] at hne
    rw [hchosen] at hne
    have hptop : pm.getD (predState s j) ⊤ ≠ ⊤ := by
      intro htop
      apply hne
      rw [branchCand, htop, top_add]
    obtain ⟨hrun_p, hcost_p⟩ := hsound (predState s j) (predState_lt s j) hptop
    have hwalk : tbWalk ((vitStep bmf pm r).2 :: tbs) s
        = inBit s :: tbWalk tbs (predState s j) := by
      rw [tbWalk, ← hj]
    have hlenw : P.length = (tbWalk tbs (predState s j)).reverse.length := by
      rw [List.length_reverse, tbWalk_length, htbs]
    constructor
    · rw [hwalk, List.reverse_cons, runState_append, hrun_p, nextState_predState hs]
    · rw [hwalk, List.reverse_cons,
        pathCost_append bmf P ((tbWalk tbs (predState s j)).reverse) 0 r (inBit s) hlenw,
        hrun_p, hgetpm s hs, hchosen, branchCand, WithTop.coe_add, hcost_p]
  · intro xs hxs
    rcases List.eq_nil_or_concat xs with rfl | ⟨ys, b, rfl⟩
    · simp at hxs
    · rw [List.concat_eq_append] at hxs ⊢
      have hys : ys.length = P.length := by
        simp only [List.length_append, List.length_cons, List.length_nil] at hxs
        omega
      have hσ : runState 0 ys < 64 := runState_lt ys (by norm_num)
      have hS : runState 0 (ys ++ [b]) = nextState (runState 0 ys) b := runState_append 0 ys b
      have hS64 : runState 0 (ys ++ [b]) < 64 := by
        rw [hS]
        exact nextState_lt hσ b
      rw [hgetpm _ hS64]
      have hb' : inBit (runState 0 (ys ++ [b])) = b := by
        rw [hS]
        exact inBit_nextState hσ b
      have hpred : predState (runState 0 (ys ++ [b])) (decide (runState 0 ys % 2 = 1))
          = runState 0 ys := by
        rw [hS]
        exact predState_nextState hσ b
      have hminle : min (branchCand bmf pm r (runState 0 (ys ++ [b])) false)
            (branchCand bmf pm r (runState 0 (ys ++ [b])) true)
          ≤ branchCand bmf pm r (runState 0 (ys ++ [b])) (decide (runState 0 ys % 2 = 1)) := by
        rcases Bool.eq_false_or_eq_true (decide (runState 0 ys % 2 = 1)) with hj2 | hj2 <;>
          rw [hj2]
        · exact min_le_right _ _
        · exact min_le_left _ _
      refine le_trans hminle ?_
      rw [branchCand, hpred, hb',
        pathCost_append bmf P ys 0 r b hys.symm, WithTop.coe_add]
      exact add_le_add_right (hmin ys hys) _

theorem vitRun_inv (bmf : (Bool × Bool) → (ℚ × ℚ) → ℚ) :
    ∀ (rs : List (ℚ × ℚ)) (P : List (ℚ × ℚ)) (pm : List (WithTop ℚ))
      (tbs : List (List Bool)), VitInv bmf P pm tbs →
    VitInv bmf (P ++ rs) (vitRun bmf pm rs).1 ((vitRun bmf pm rs).2 ++ tbs) := by
  intro rs
  induction rs with
  | nil => intro P pm tbs h; simpa using h
  | cons r rs ih =>
      intro P pm tbs h
      have hstep := vitStep_inv bmf P pm tbs r h
      have hih := ih (P ++ [r]) (vitStep bmf pm r).1 ((vitStep bmf pm r).2 :: tbs) hstep
      have h1 : (vitRun bmf pm (r :: rs)).1 = (vitRun bmf (vitStep bmf pm r).1 rs).1 := rfl
      have h2 : (vitRun bmf pm (r :: rs)).2
          = (vitRun bmf (vitStep bmf pm r).1 rs).2 ++ [(vitStep bmf pm r).2] := rfl
      rw [h1, h2, List.append_assoc, List.singleton_append]
      rwa [List.append_assoc, List.singleton_append] at hih

/-! ## Viterbi round trip (claim C1): path-cost optimality of the true path -/

theorem encodePairs_length : ∀ (u : List Bool) (s : Nat), (encodePairs s u).length = u.length := by
  intro u
  induction u with
  | nil => intro s; rfl
  | cons b bs ih => intro s; simp [encodePairs, ih]

theorem pairUp_flat2_map : ∀ (ps : List (Bool × Bool)),
    pairUp ((flat2 ps).map bip) = ps.map (fun c => (bip c.1, bip c.2)) := by
  intro ps
  induction ps with
  | nil => rfl
  | cons p ps ih => simp [flat2, pairUp, ih]

theorem pathCost_self : ∀ (u : List Bool) (s : Nat),
    pathCost bmCorr s ((encodePairs s u).map (fun c => (bip c.1, bip c.2))) u
      = -2 * u.length := by
  intro u
  induction u with
  | nil => intro s; simp [encodePairs, pathCost]
  | cons x xs ih =>
      intro s
      simp only [encodePairs, List.map_cons, pathCost, List.length_cons]
      rw [ih (nextState s x), bmCorr_self]
      push_cast
      ring

theorem pathCost_ge : ∀ (prs : List (ℚ × ℚ)) (xs : List Bool) (s : Nat),
    (∀ p ∈ prs, (p.1 = 1 ∨ p.1 = -1) ∧ (p.2 = 1 ∨ p.2 = -1)) →
    xs.length = prs.length →
    -2 * prs.length ≤ pathCost bmCorr s prs xs := by
  intro prs
  induction prs with
  | nil =>
      intro xs s _ hl
      have hx : xs = [] := List.length_eq_zero.mp hl
      subst hx
      simp [pathCost]
  | cons r prs ih =>
      intro xs s hmem hl
      rcases xs with _ | ⟨x, xs⟩
      · simp at hl
      · simp only [pathCost, List.length_cons]
        have h1 := hmem r (List.mem_cons_self r prs)
        have hbm := bmCorr_ge (outA x s, outB x s) r h1.1 h1.2
        have hih := ih xs (nextState s x)
          (fun p hp => hmem p (List.mem_cons_of_mem r hp)) (by simpa using hl)
        push_cast
        push_cast at hih
        linarith

theorem encodePairs_bip_mem : ∀ (u : List Bool) (s : Nat) (p : ℚ × ℚ),
    p ∈ (encodePairs s u).map (fun c => (bip c.1, bip c.2)) →
    (p.1 = 1 ∨ p.1 = -1) ∧ (p.2 = 1 ∨ p.2 = -1) := by
  intro u s p hp
  rw [List.mem_map] at hp
  obtain ⟨c, _, rfl⟩ := hp
  exact ⟨bip_pm_one c.1, bip_pm_one c.2⟩

/-- On noise-free bipolar soft bits derived from `encodePairs s u`, every
input sequence of the same length has path cost at least `−2·|u|`, with
equality exactly for `u` itself (the encoder is injective: the first
differing input bit flips the first output bit). -/
theorem pathCost_optimal : ∀ (u : List Bool) (xs : List Bool) (s : Nat),
    xs.length = u.length →
    (-2 * u.length ≤ pathCost bmCorr s ((encodePairs s u).map (fun c => (bip c.1, bip c.2))) xs
      ∧ (pathCost bmCorr s ((encodePairs s u).map (fun c => (bip c.1, bip c.2))) xs
          = -2 * u.length → xs = u)) := by
  intro u
  induction u with
  | nil =>
      intro xs s hl
      have hx : xs = [] := List.length_eq_zero.mp hl
      subst hx
      exact ⟨by simp [encodePairs, pathCost], fun _ => rfl⟩
  | cons y u' ih =>
      intro xs s hl
      rcases xs with _ | ⟨x, xs'⟩
      · simp at hl
      have hl' : xs'.length = u'.length := by simpa using hl
      simp only [encodePairs, List.map_cons, pathCost, List.length_cons]
      by_cases hxy : x = y
      · subst hxy
        have hbm := bmCorr_self (outA x s) (outB x s)
        obtain ⟨hge, heq⟩ := ih xs' (nextState s x) hl'
        constructor
        · rw [hbm]
          push_cast
          push_cast at hge
          linarith
        · intro htot
          rw [hbm] at htot
          have htail : pathCost bmCorr (nextState s x)
              ((encodePairs (nextState s x) u').map (fun c => (bip c.1, bip c.2))) xs'
                = -2 * u'.length := by
            push_cast at htot ⊢
            linarith
          rw [heq htail]
      · have hA : outA x s ≠ outA y s := outA_ne hxy s
        have ht1 : (1 - 2 * (if outA x s then (1 : ℚ) else 0)) * bip (outA y s) = 1 :=
          bmCorr_mismatch_term (outA x s) (outA y s) hA
        have ht2 : -1 ≤ (1 - 2 * (if outB x s then (1 : ℚ) else 0)) * bip (outB y s) :=
          bmCorr_term_ge (outB x s) (bip (outB y s)) (bip_pm_one (outB y s))
        have hbm0 : 0 ≤ bmCorr (outA x s, outB x s) (bip (outA y s), bip (outB y s)) := by
          rw [bmCorr]
          dsimp only
          linarith
        have htail : -2 * (((encodePairs (nextState s y) u').map
              (fun c => (bip c.1, bip c.2))).length : ℚ)
            ≤ pathCost bmCorr (nextState s x)
              ((encodePairs (nextState s y) u').map (fun c => (bip c.1, bip c.2))) xs' := by
          apply pathCost_ge
          · exact fun p hp => encodePairs_bip_mem u' (nextState s y) p hp
          · rw [List.length_map, encodePairs_length]
            exact hl'
        rw [List.length_map, encodePairs_length] at htail
        constructor
        · push_cast
          push_cast at htail
          linarith
        · intro htot
          exfalso
          push_cast at htot htail
          linarith

/-! ## Viterbi round trip (claim C1): final-state selection and assembly -/

theorem argminIdx_spec : ∀ (l : List (WithTop ℚ)), l ≠ [] →
    argminIdx l < l.length ∧ ∀ i, i < l.length → l.getD (argminIdx l) ⊤ ≤ l.getD i ⊤ := by
  intro l
  induction l with
  | nil => intro h; exact absurd rfl h
  | cons a rest ih =>
      intro _
      by_cases hr : rest = []
      · subst hr
        have ha0 : argminIdx [a] = 0 := by
          show (if (⊤ : WithTop ℚ) < a then 0 + 1 else 0) = 0
          rw [if_neg not_top_lt]
        constructor
        · rw [ha0]
          norm_num
        · intro i hi
          have hi0 : i = 0 := by simpa using hi
          subst hi0
          rw [ha0]
      · obtain ⟨hlt, hle⟩ := ih hr
        by_cases hm : rest.getD (argminIdx rest) ⊤ < a
        · have ha : argminIdx (a :: rest) = argminIdx rest + 1 := by
            show (if rest.getD (argminIdx rest) ⊤ < a then argminIdx rest + 1 else 0)
              = argminIdx rest + 1
            rw [if_pos hm]
          constructor
          · rw [ha, List.length_cons]
            omega
          · intro i hi
            rw [ha]
            rcases i with _ | i'
            · exact le_of_lt hm
            · exact hle i' (by simpa using hi)
        · have ha : argminIdx (a :: rest) = 0 := by
            show (if rest.getD (argminIdx rest) ⊤ < a then argminIdx rest + 1 else 0) = 0
            rw [if_neg hm]
          constructor
          · rw [ha]
            simp
          · intro i hi
            rw [ha]
            rcases i with _ | i'
            · exact le_refl _
            · exact le_trans (le_of_not_lt hm) (hle i' (by simpa using hi))

/-- The Viterbi decoder with the correlation branch metric recovers the
exact input sequence from noise-free bipolar soft bits, for every input. -/
theorem viterbi_noiseless (u : List Bool) :
    convolutional_decoder (softOf (convolutional_encoder u)) = u := by
  have hpair : pairUp (softOf (convolutional_encoder u))
      = (encodePairs 0 u).map (fun c => (bip c.1, bip c.2)) := by
    rw [softOf, convolutional_encoder]
    exact pairUp_flat2_map (encodePairs 0 u)
  set prs := (encodePairs 0 u).map (fun c => (bip c.1, bip c.2)) with hprs
  have hlenprs : prs.length = u.length := by
    rw [hprs, List.length_map, encodePairs_length]
  have hinv := vitRun_inv bmCorr prs [] vitInit [] (vitInv_init bmCorr)
  rw [List.nil_append, List.append_nil] at hinv
  obtain ⟨hpm64, htbslen, hsound, hmin⟩ := hinv
  have hsu64 : runState 0 u < 64 := runState_lt u (by norm_num)
  have hcostu : pathCost bmCorr 0 prs u = -2 * u.length := by
    rw [hprs]
    exact pathCost_self u 0
  have hboundu := hmin u hlenprs.symm
  rw [hcostu] at hboundu
  have hne : (vitRun bmCorr vitInit prs).1 ≠ [] := by
    intro h0
    rw [h0] at hpm64
    simp at hpm64
  obtain ⟨harglt, hargle⟩ := argminIdx_spec (vitRun bmCorr vitInit prs).1 hne
  have ha64 : argminIdx (vitRun bmCorr vitInit prs).1 < 64 := by
    rw [← hpm64]
    exact harglt
  have h1 := hargle (runState 0 u) (by rw [hpm64]; exact hsu64)
  have h2 : (vitRun bmCorr vitInit prs).1.getD (argminIdx (vitRun bmCorr vitInit prs).1) ⊤
      ≤ ((-2 * u.length : ℚ) : WithTop ℚ) := le_trans h1 hboundu
  have hnetop : (vitRun bmCorr vitInit prs).1.getD
      (argminIdx (vitRun bmCorr vitInit prs).1) ⊤ ≠ ⊤ := by
    intro htop
    rw [htop] at h2
    exact WithTop.coe_ne_top (top_le_iff.mp h2)
  obtain ⟨hrunw, hcostw⟩ := hsound _ ha64 hnetop
  have hwlen : (tbWalk (vitRun bmCorr vitInit prs).2
      (argminIdx (vitRun bmCorr vitInit prs).1)).reverse.length = u.length := by
    rw [List.length_reverse, tbWalk_length, htbslen, hlenprs]
  obtain ⟨hwge, hweq⟩ := pathCost_optimal u
    (tbWalk (vitRun bmCorr vitInit prs).2
      (argminIdx (vitRun bmCorr vitInit prs).1)).reverse 0 hwlen
  have hcle : pathCost bmCorr 0 prs
      (tbWalk (vitRun bmCorr vitInit prs).2
        (argminIdx (vitRun bmCorr vitInit prs).1)).reverse ≤ -2 * u.length := by
    rw [← hcostw] at h2
    exact WithTop.coe_le_coe.mp h2
  have hceq := le_antisymm hcle hwge
  have hw := hweq hceq
  show (tbWalk (vitRun bmCorr vitInit (pairUp (softOf (convolutional_encoder u)))).2
      (argminIdx (vitRun bmCorr vitInit (pairUp (softOf (convolutional_encoder u)))).1)).reverse
      = u
  rw [hpair]
  exact hw

set_option maxRecDepth 100000 in
unseal Rat.add Rat.mul Rat.sub in
/-- C1 counterexample to the spec-literal reading: with the branch metric
exactly as written in §4.9 (`bm = −((1−2c₀)·r₀ + (1−2c₁)·r₁)`) the decoder
prefers the path anti-correlated with the received soft bits, and the
"strip the 6 tail bits" step shortens the output; on the noise-free soft
bits of `u₀ = 1000000` neither the stripped nor the unstripped literal
decoder returns `u₀`. -/
theorem viterbi_litSpec_counterexample :
    convolutional_decoder_litSpec (softOf (convolutional_encoder
        [true, false, false, false, false, false, false]))
      ≠ [true, false, false, false, false, false, false] ∧
    viterbiCore bmSpec (softOf (convolutional_encoder
        [true, false, false, false, false, false, false]))
      ≠ [true, false, false, false, false, false, false] := by
  constructor <;> decide

/-- C1 (amended): for every bit vector `u` whose last 6 bits are zero, the
Viterbi decoder applied to the soft bits `2c − 1` derived from
`convolutional_encoder(u)` returns exactly `u`, including the 6 trailing
zero bits — with the branch metric `bm = (1−2c₀)·r₀ + (1−2c₁)·r₁` (the sign
demanded by the stated positive ⇒ 1 convention) and without stripping the
tail from the traceback. -/
theorem viterbi_round_trip (u : List Bool) (hlen : 6 ≤ u.length)
    (htail : ∀ i, u.length - 6 ≤ i → i < u.length → u.getD i false = false) :
    convolutional_decoder (softOf (convolutional_encoder u)) = u :=
  viterbi_noiseless u

/-- Witness for C1 at a concrete input with zero tail. -/
theorem viterbi_round_trip_witness :
    convolutional_decoder (softOf (convolutional_encoder
        [true, true, false, true, false, false, false, false, false, false]))
      = [true, true, false, true, false, false, false, false, false, false] :=
  viterbi_round_trip [true, true, false, true, false, false, false, false, false, false]
    (by decide) (by decide)

/-- Witness for C10 at the BPSK 1/2 rate and a concrete (empty) symbol
vector. -/
theorem psdu_length_zero_witness :
    ∃ (soft : List ℚ) (tailok : Bool),
      demapper_ofdm [] 1 = Except.ok soft ∧
      decode_data_symbols (RateInfo.valid ⟨"BPSK 1/2", 6, 1, 24, 48⟩) [] 0
        = Except.ok ([], tailok, true) ∧
      recoveredBytes ⟨"BPSK 1/2", 6, 1, 24, 48⟩ soft 0 = [] ∧
      crc32 [] = 0 ∧ fromLEbytes [] = 0 :=
  psdu_length_zero 0b1101 ⟨"BPSK 1/2", 6, 1, 24, 48⟩ (by decide) (Or.inl rfl) [] (by decide)

end Ofdm
